import Mathlib

/-!
Verification of the filename-generation core of a storage-base library
(`BaseStorage.js`).

Strings are modelled as `List Char` (lists of Unicode scalar values, i.e.
well-formed JavaScript strings).  UTF-8 byte counts are made explicit through
`utf8Len`; UTF-16 code-unit counts (the units JavaScript regexes without the
`u` flag operate on) through `utf16Units`.  Every definition is translated
from the JavaScript source; the handful of Node.js primitives used by the
source (`path.extname`, `path.basename`, `String.prototype.endsWith`,
`TextEncoder`/`TextDecoder`, `Buffer.toString("hex")`) are modelled by their
documented semantics at the call sites (slash-free basenames).
-/

set_option maxRecDepth 20000

/-- UTF-8 encoded length in bytes of one Unicode scalar value. -/
def utf8Len (c : Char) : Nat :=
  if c.toNat < 0x80 then 1
  else if c.toNat < 0x800 then 2
  else if c.toNat < 0x10000 then 3
  else 4

/-- UTF-8 encoded length in bytes of a string (what `TextEncoder.encode(s).length` returns). -/
def utf8ByteLength : List Char → Nat
  | [] => 0
  | c :: cs => utf8Len c + utf8ByteLength cs

/-- Number of UTF-16 code units of one Unicode scalar value (JavaScript `String.length` counts these; characters above U+FFFF are surrogate pairs, i.e. two units). -/
def utf16Units (c : Char) : Nat :=
  if c.toNat < 0x10000 then 1 else 2

/-- UTF-16 code-unit count of a string (JavaScript `String.length`). -/
def utf16Length : List Char → Nat
  | [] => 0
  | c :: cs => utf16Units c + utf16Length cs

/-- The character class `[\w@.]` of the sanitizer regex `/[^\w@.]/gi`:
ASCII letters, digits, underscore, `@`, and `.` (the `i` flag is redundant,
both cases are already in `\w`). -/
def isFileNameChar (c : Char) : Bool :=
  (decide (65 ≤ c.toNat) && decide (c.toNat ≤ 90)) ||
  (decide (97 ≤ c.toNat) && decide (c.toNat ≤ 122)) ||
  (decide (48 ≤ c.toNat) && decide (c.toNat ≤ 57)) ||
  decide (c.toNat = 95) || decide (c.toNat = 64) || decide (c.toNat = 46)

/-- Characters that can appear in sanitizer output: the allowed class plus the dash substituted for everything else. -/
def isSanitizedChar (c : Char) : Bool :=
  isFileNameChar c || decide (c = '-')

/-- `sanitizeBasename(basename) { return basename.replace(/[^\w@.]/gi, '-'); }`

The regex has no `u` flag, so it matches per UTF-16 code unit: a character in
the Basic Multilingual Plane is one unit and becomes one dash when it is not
in `[\w@.]`; a character above U+FFFF is a surrogate pair, both of whose
units fail `[\w@.]`, so it becomes two dashes. -/
def sanitizeBasename : List Char → List Char
  | [] => []
  | c :: cs =>
    if 0x10000 ≤ c.toNat then '-' :: '-' :: sanitizeBasename cs
    else if isFileNameChar c then c :: sanitizeBasename cs
    else '-' :: sanitizeBasename cs

/-- Spec-side description for the amended sanitizer claim, following its
words: a character of `[A-Za-z0-9_@.]` is kept; every other character is
replaced by dashes, one dash per UTF-16 code unit — one dash for a character
in the Basic Multilingual Plane, two dashes for a character above U+FFFF. -/
def specSanitizeChar (c : Char) : List Char :=
  if isFileNameChar c then [c] else List.replicate (utf16Units c) '-'

/-- The per-character description applied across a whole string. -/
def specSanitize : List Char → List Char
  | [] => []
  | c :: cs => specSanitizeChar c ++ specSanitize cs

/-- The alphanumeric class `[a-z0-9]` with the `i` flag of the extension
regex `/(\.[a-z0-9]{2,10})+$/i` (ASCII only: without the `u` flag, `i`
canonicalization never maps non-ASCII onto ASCII). -/
def isExtChar (c : Char) : Bool :=
  (decide (97 ≤ c.toNat) && decide (c.toNat ≤ 122)) ||
  (decide (65 ≤ c.toNat) && decide (c.toNat ≤ 90)) ||
  (decide (48 ≤ c.toNat) && decide (c.toNat ≤ 57))

/-- The suffix of `s` that starts at its last `.`, or `none` when `s` has no dot. -/
def extSuffix : List Char → Option (List Char)
  | [] => none
  | c :: cs =>
    match extSuffix cs with
    | some e => some e
    | none => if c = '.' then some (c :: cs) else none

/-- Node's `path.extname` on a slash-free name (all call sites pass
basenames): the substring from the last `.` to the end, except that a name
whose only dot is its first character (hidden-file convention, e.g.
`".bashrc"`) and the name `".."` report no extension. -/
def extname (s : List Char) : List Char :=
  if s = ['.', '.'] then []
  else
    match s with
    | [] => []
    | _ :: cs => (extSuffix cs).getD []

/-- Length of the leading run of `[a-z0-9]` (case-insensitive) characters. -/
def alnumRunLength : List Char → Nat
  | [] => 0
  | c :: cs => if isExtChar c then alnumRunLength cs + 1 else 0

/-- One-or-more groups `(\.[a-z0-9]{2,10})+` matching the whole list and
anchored at its end (fuelled recursion; the fuel, one unit per group, is
ample since each group consumes at least three characters). -/
def extGroupsAux : Nat → List Char → Bool
  | 0, _ => false
  | _, [] => false
  | fuel + 1, c :: t =>
    if c = '.' then
      let r := alnumRunLength t
      if 2 ≤ r ∧ r ≤ 10 then ((t.drop r).isEmpty || extGroupsAux fuel (t.drop r)) else false
    else false

/-- `(\.[a-z0-9]{2,10})+` matching the whole list, anchored at its end. -/
def extGroups (l : List Char) : Bool := extGroupsAux l.length l

/-- `ext.match(/(\.[a-z0-9]{2,10})+$/i)` is non-null: the pattern is anchored
only at the end, so a match may start at any position, i.e. some suffix of
the string is a non-empty run of groups. -/
def regexHasExtMatch : List Char → Bool
  | [] => false
  | c :: cs => extGroups (c :: cs) || regexHasExtMatch cs

/-- ```
getFileExtension(filename) {
  const ext = path.extname(filename);
  if (!ext.match(/(\.[a-z0-9]{2,10})+$/i)) { return ''; }
  return ext;
}
``` -/
def getFileExtension (filename : List Char) : List Char :=
  let ext := extname filename
  if regexHasExtMatch ext then ext else []

/-- `s.endsWith(t)` of JavaScript: `t` is a suffix of `s`. -/
def jsEndsWith (s t : List Char) : Bool :=
  decide (t.length ≤ s.length) && decide (s.drop (s.length - t.length) = t)

/-- Node's `path.basename(s, ext)` on a slash-free name: the name unchanged
when `ext` is empty or does not end the name; the empty string when the name
equals `ext` (Node's early `suffix === path` return, cf. its test
`basename(".js", ".js") === ""`); otherwise the name with the trailing
`ext` stripped. -/
def jsBasenameExt (s ext : List Char) : List Char :=
  if ext = [] then s
  else if s = ext then []
  else if jsEndsWith s ext then s.take (s.length - ext.length)
  else s

/-- ```
getSuffix(filename, ext, suffix) {
  const stem = path.basename(filename, ext);
  if (!stem.endsWith(suffix)) { return ''; }
  return suffix;
}
``` -/
def getSuffix (filename ext sfx : List Char) : List Char :=
  let stem := jsBasenameExt filename ext
  if jsEndsWith stem sfx then sfx else []

/-- The hexadecimal digits used by `Buffer.prototype.toString("hex")` (lowercase). -/
def hexDigitChars : List Char := "0123456789abcdef".data

/-- The hexadecimal digit for `n < 16`. -/
def hexDigit (n : Nat) : Char := hexDigitChars.getD n '0'

/-- Two lowercase hexadecimal digits of one byte. -/
def byteToHex (b : Nat) : List Char := [hexDigit (b / 16 % 16), hexDigit (b % 16)]

/-- `buf.toString('hex')`: each byte as two lowercase hexadecimal digits. -/
def bytesToHex : List Nat → List Char
  | [] => []
  | b :: bs => byteToHex b ++ bytesToHex bs

/-- `generateSecureHash() { return crypto.randomBytes(8).toString('hex'); }`
The random source is modelled as the explicit argument `randomBytes` (the
eight bytes drawn from `crypto.randomBytes`). -/
def generateSecureHash (randomBytes : List Nat) : List Char :=
  bytesToHex randomBytes

/-- Lowercase hexadecimal digit `[0-9a-f]`. -/
def isLowerHexDigit (c : Char) : Bool :=
  (decide (48 ≤ c.toNat) && decide (c.toNat ≤ 57)) ||
  (decide (97 ≤ c.toNat) && decide (c.toNat ≤ 102))

/-- `MAX_FILENAME_BYTES = 255` of `BaseStorage.js`. -/
def MAX_FILENAME_BYTES : Nat := 255

/-- `ORIGINAL_SUFFIX = '_o'` of `BaseStorage.js`. -/
def ORIGINAL_SUFFIX : List Char := "_o".data

/-- `new TextDecoder().decode(encoder.encode(s).slice(0, budget))`: decoding
the first `budget` bytes of the UTF-8 encoding of `s`.  Whole characters
whose bytes fit are decoded as themselves; if the byte budget runs out in
the middle of a character's bytes, the WHATWG decoder (non-fatal mode, the
`TextDecoder` default) replaces the dangling incomplete sequence with one
U+FFFD replacement character. -/
def utf8DecodeTrunc : List Char → Nat → List Char
  | _, 0 => []
  | [], _ + 1 => []
  | c :: cs, b + 1 =>
    if utf8Len c ≤ b + 1 then c :: utf8DecodeTrunc cs (b + 1 - utf8Len c)
    else ['�']

/-- ```
generateFilename({stem, hash, suffix = '', ext = ''}) {
  const encoder = new TextEncoder();
  let filename = `${stem}-${hash}${suffix}${ext}`;
  const fileNameBytes = encoder.encode(filename);
  if (fileNameBytes.length > MAX_FILENAME_BYTES) {
    const stemBytes = encoder.encode(stem);
    const bytesToRemove = fileNameBytes.length - MAX_FILENAME_BYTES;
    const newStemBytes = stemBytes.slice(0, -bytesToRemove);
    const decoder = new TextDecoder();
    filename = `${decoder.decode(newStemBytes)}-${hash}${suffix}${ext}`;
  }
  return filename;
}
```
`slice(0, -k)` keeps the first `stemBytes.length - k` bytes (clamped at
zero), which `utf8DecodeTrunc` then decodes. -/
def generateFilename (stem hash suffix ext : List Char) : List Char :=
  let filename := stem ++ '-' :: (hash ++ suffix ++ ext)
  let fileNameBytes := utf8ByteLength filename
  if MAX_FILENAME_BYTES < fileNameBytes then
    let stemBytes := utf8ByteLength stem
    let bytesToRemove := fileNameBytes - MAX_FILENAME_BYTES
    utf8DecodeTrunc stem (stemBytes - bytesToRemove) ++ '-' :: (hash ++ suffix ++ ext)
  else filename

/-- `generateUniqueFilename({stem, suffix, ext})`: draws a hash with
`generateSecureHash` (random bytes passed explicitly) and composes the name. -/
def generateUniqueFilename (randomBytes : List Nat) (stem suffix ext : List Char) : List Char :=
  generateFilename stem (generateSecureHash randomBytes) suffix ext

/-- Node's `path.basename(s)` (no extension argument): the part after the
last slash, ignoring trailing slashes. -/
def jsBasename (s : List Char) : List Char :=
  ((s.reverse.dropWhile (fun c => decide (c = '/'))).takeWhile (fun c => decide (c ≠ '/'))).reverse

/-- Node's `path.join(a, b)` for two plain segments (no normalization needed
at the call sites): `a ++ "/" ++ b`. -/
def pathJoin (a b : List Char) : List Char := a ++ '/' :: b

/-- ```
getUniquePathname({file: {name: fileName, suffix: fileSuffix = ORIGINAL_SUFFIX}, targetDir}) {
  const basename = this.sanitizeBasename(path.basename(fileName));
  const ext = this.getFileExtension(basename);
  const suffix = this.getSuffix(basename, ext, fileSuffix);
  const stem = path.basename(basename, suffix + ext);
  const filename = this.generateUniqueFilename({stem, suffix, ext});
  return path.join(targetDir, filename);
}
``` -/
def getUniquePathname (randomBytes : List Nat) (fileName fileSuffix targetDir : List Char) :
    List Char :=
  let basename := sanitizeBasename (jsBasename fileName)
  let ext := getFileExtension basename
  let sfx := getSuffix basename ext fileSuffix
  let stem := jsBasenameExt basename (sfx ++ ext)
  pathJoin targetDir (generateUniqueFilename randomBytes stem sfx ext)

/-- The candidate name the legacy path tries at counter `i`:
`name + (i ? '-' + i : '') + (ext || '')`. -/
def legacyFilename (name ext : List Char) (i : Nat) : List Char :=
  let counterPart := if i ≠ 0 then '-' :: Nat.toDigits 10 i else []
  if ext ≠ [] then name ++ counterPart ++ ext else name ++ counterPart

/-- The deprecated `generateUnique(dir, name, ext, i)` retry loop.  The
externally supplied backend check `exists` is the argument `existsCheck`;
the extra `fuel` argument bounds how many existence checks the run may
perform, and `none` means the recursion did not terminate within that many
checks. -/
def generateUnique (existsCheck : List Char → Bool) (dir name ext : List Char) :
    Nat → Nat → Option (List Char)
  | _, 0 => none
  | i, fuel + 1 =>
    let filename := legacyFilename name ext i
    if existsCheck filename then generateUnique existsCheck dir name ext (i + 1) fuel
    else some (pathJoin dir filename)

/-- Spec-side description for the extension claims: "the trailing
dot-prefixed extension" of a name, i.e. its suffix starting at the last
dot (empty when there is no dot). -/
def specTrailingDotGroup (s : List Char) : List Char := (extSuffix s).getD []

/-- Spec-side description of a valid extension shape: a dot followed by 2 to
10 alphanumeric characters (case-insensitive). -/
def specValidExtShape : List Char → Bool
  | '.' :: rest => decide (2 ≤ rest.length) && decide (rest.length ≤ 10) && rest.all isExtChar
  | _ => false

/-- Spec-side description for the suffix claim: "the stem, the filename with
the extension removed". -/
def specStem (filename ext : List Char) : List Char :=
  if ext <:+ filename then filename.take (filename.length - ext.length) else filename

/-- The hash used throughout the repository's own tests. -/
def hash12 : List Char := "a1b2c3d4e5f6".data

/-- `"_o"` as an explicit list. -/
def sfxO : List Char := "_o".data

/-- `".jpg"` as an explicit list. -/
def extJpg : List Char := ".jpg".data

/-- A stem whose truncation point falls two bytes into a four-byte character:
two ASCII characters followed by sixty U+1F334 (🌴, four UTF-8 bytes each). -/
def c1stem : List Char := 'a' :: 'a' :: List.replicate 60 '🌴'

/-- A stem whose truncation point falls three bytes into a four-byte
character: one ASCII character followed by sixty U+1F334. -/
def c2stem : List Char := 'a' :: List.replicate 60 '🌴'

/-- `"something.1"`, the repository test input with an invalid numeric extension. -/
def something1 : List Char := "something.1".data

/-- `"target-dir"`, the repository test target directory. -/
def targetDirStr : List Char := "target-dir".data

/-- Concrete bytes standing in for one draw of `crypto.randomBytes(8)`. -/
def bytes0 : List Nat := [0, 17, 34, 51, 68, 85, 102, 119]



theorem fileNameChar_bmp {c : Char} (h : isFileNameChar c = true) : c.toNat < 0x10000 := by
  simp only [isFileNameChar, Bool.or_eq_true, Bool.and_eq_true, decide_eq_true_eq] at h
  omega

theorem sanitizedChar_bmp {c : Char} (h : isSanitizedChar c = true) : c.toNat < 0x10000 := by
  simp only [isSanitizedChar, Bool.or_eq_true, decide_eq_true_eq] at h
  rcases h with h | h
  · exact fileNameChar_bmp h
  · subst h; decide

theorem dash_sanitized : isSanitizedChar '-' = true := by decide

theorem sanitizeBasename_all_sanitized (s : List Char) :
    (sanitizeBasename s).all isSanitizedChar = true := by
  induction s with
  | nil => rfl
  | cons c cs ih =>
    unfold sanitizeBasename
    by_cases h1 : 0x10000 ≤ c.toNat
    · simp [h1, List.all_cons, ih, dash_sanitized]
    · by_cases h2 : isFileNameChar c
      · simp [h1, h2, List.all_cons, ih, isSanitizedChar]
      · simp [h1, h2, List.all_cons, ih, dash_sanitized]

theorem sanitizeBasename_fixed {s : List Char} (h : s.all isSanitizedChar = true) :
    sanitizeBasename s = s := by
  induction s with
  | nil => rfl
  | cons c cs ih =>
    rw [List.all_cons, Bool.and_eq_true] at h
    have hbmp : ¬ 0x10000 ≤ c.toNat := by
      have := sanitizedChar_bmp h.1
      omega
    unfold sanitizeBasename
    by_cases h2 : isFileNameChar c
    · simp [hbmp, h2, ih h.2]
    · have hc : c = '-' := by
        have := h.1
        simp only [isSanitizedChar, Bool.or_eq_true, decide_eq_true_eq] at this
        rcases this with h3 | h3
        · exact absurd h3 (by simp [h2])
        · exact h3
      simp [hbmp, h2, hc, ih h.2]

theorem utf16Length_cons (c : Char) (cs : List Char) :
    utf16Length (c :: cs) = utf16Units c + utf16Length cs := rfl

theorem utf8ByteLength_cons (c : Char) (cs : List Char) :
    utf8ByteLength (c :: cs) = utf8Len c + utf8ByteLength cs := rfl

theorem sanitizeBasename_utf16_length (s : List Char) :
    utf16Length (sanitizeBasename s) = utf16Length s := by
  induction s with
  | nil => rfl
  | cons c cs ih =>
    unfold sanitizeBasename
    by_cases h1 : 0x10000 <= c.toNat
    · have hc : utf16Units c = 2 := by unfold utf16Units; simp; omega
      have hd : utf16Units '-' = 1 := by decide
      simp only [h1, if_true, utf16Length_cons, ih, hc, hd]
      omega
    · have hc : utf16Units c = 1 := by unfold utf16Units; simp; omega
      have hd : utf16Units '-' = 1 := by decide
      by_cases h2 : isFileNameChar c
      · simp only [h1, h2, if_false, if_true, utf16Length_cons, ih]
      · simp only [h1, h2, Bool.false_eq_true, if_false, utf16Length_cons, ih, hc, hd]

theorem sanitizeBasename_bmp_map {s : List Char}
    (h : s.all (fun c => decide (c.toNat < 0x10000)) = true) :
    sanitizeBasename s = s.map (fun c => if isFileNameChar c then c else '-') := by
  induction s with
  | nil => rfl
  | cons c cs ih =>
    rw [List.all_cons, Bool.and_eq_true, decide_eq_true_eq] at h
    have h1 : ¬ 0x10000 <= c.toNat := by omega
    unfold sanitizeBasename
    by_cases h2 : isFileNameChar c
    · simp [h1, h2, ih h.2]
    · simp [h1, h2, ih h.2]

theorem bytesToHex_length (bs : List Nat) : (bytesToHex bs).length = 2 * bs.length := by
  induction bs with
  | nil => rfl
  | cons b t ih =>
    unfold bytesToHex byteToHex
    simp [ih]
    omega

theorem hexDigit_lower_hex {n : Nat} (h : n < 16) : isLowerHexDigit (hexDigit n) = true := by
  interval_cases n <;> decide

theorem hexDigit_utf8 {n : Nat} (h : n < 16) : utf8Len (hexDigit n) = 1 := by
  interval_cases n <;> decide

theorem bytesToHex_all_hex (bs : List Nat) : (bytesToHex bs).all isLowerHexDigit = true := by
  induction bs with
  | nil => rfl
  | cons b t ih =>
    unfold bytesToHex byteToHex
    simp only [List.cons_append, List.nil_append, List.all_cons, Bool.and_eq_true]
    refine ⟨hexDigit_lower_hex ?_, hexDigit_lower_hex ?_, ih⟩
    · exact Nat.mod_lt _ (by norm_num)
    · exact Nat.mod_lt _ (by norm_num)

theorem utf8ByteLength_append (a b : List Char) :
    utf8ByteLength (a ++ b) = utf8ByteLength a + utf8ByteLength b := by
  induction a with
  | nil => simp [utf8ByteLength]
  | cons c t ih =>
    simp only [List.cons_append, utf8ByteLength_cons, ih]
    omega

theorem bytesToHex_utf8 (bs : List Nat) : utf8ByteLength (bytesToHex bs) = 2 * bs.length := by
  induction bs with
  | nil => rfl
  | cons b t ih =>
    unfold bytesToHex byteToHex
    rw [utf8ByteLength_append]
    simp only [utf8ByteLength_cons, ih]
    rw [hexDigit_utf8 (Nat.mod_lt _ (by norm_num)), hexDigit_utf8 (Nat.mod_lt _ (by norm_num))]
    simp [utf8ByteLength]
    omega

theorem extSuffix_none_iff {s : List Char} : extSuffix s = none ↔ '.' ∉ s := by
  induction s with
  | nil => simp [extSuffix]
  | cons c cs ih =>
    unfold extSuffix
    cases h : extSuffix cs with
    | some e =>
      have hdot : '.' ∈ cs := by
        by_contra hnc
        rw [ih.2 hnc] at h
        exact Option.noConfusion h
      simp only [reduceCtorEq, false_iff, not_not]
      exact List.mem_cons_of_mem c hdot
    | none =>
      by_cases hc : c = '.'
      · subst hc
        simp only [if_pos trivial, if_true, reduceCtorEq, false_iff, not_not]
        exact List.mem_cons_self _ _
      · simp only [if_neg hc, true_iff]
        intro hmem
        rcases List.mem_cons.1 hmem with h1 | h1
        · exact hc h1.symm
        · exact (ih.1 h) h1

theorem extSuffix_shape {s e : List Char} (h : extSuffix s = some e) :
    ∃ rest, e = '.' :: rest ∧ '.' ∉ rest := by
  induction s generalizing e with
  | nil => exact Option.noConfusion h
  | cons c cs ih =>
    unfold extSuffix at h
    cases h2 : extSuffix cs with
    | some e2 =>
      rw [h2] at h
      cases h
      exact ih h2
    | none =>
      rw [h2] at h
      by_cases hc : c = '.'
      · subst hc
        rw [if_pos rfl] at h
        cases h
        exact ⟨cs, rfl, extSuffix_none_iff.1 h2⟩
      · rw [if_neg hc] at h
        exact Option.noConfusion h

theorem extSuffix_isSuffix {s e : List Char} (h : extSuffix s = some e) : e <:+ s := by
  induction s generalizing e with
  | nil => exact Option.noConfusion h
  | cons c cs ih =>
    unfold extSuffix at h
    cases h2 : extSuffix cs with
    | some e2 =>
      rw [h2] at h
      cases h
      exact (ih h2).trans (List.suffix_cons c cs)
    | none =>
      rw [h2] at h
      by_cases hc : c = '.'
      · subst hc
        rw [if_pos rfl] at h
        cases h
        exact List.suffix_refl _
      · rw [if_neg hc] at h
        exact Option.noConfusion h

theorem alnumRun_le (l : List Char) : alnumRunLength l ≤ l.length := by
  induction l with
  | nil => simp [alnumRunLength]
  | cons c cs ih =>
    unfold alnumRunLength
    by_cases hc : isExtChar c
    · simp only [hc, if_true, List.length_cons]
      omega
    · simp only [hc, Bool.false_eq_true, if_false, List.length_cons]
      omega

theorem alnumRun_all {l : List Char} (h : l.all isExtChar = true) :
    alnumRunLength l = l.length := by
  induction l with
  | nil => rfl
  | cons c cs ih =>
    rw [List.all_cons, Bool.and_eq_true] at h
    unfold alnumRunLength
    simp only [h.1, if_true, ih h.2, List.length_cons]

theorem alnumRun_not_all {l : List Char} (h : l.all isExtChar = false) :
    ∃ c t, l.drop (alnumRunLength l) = c :: t ∧ isExtChar c = false := by
  induction l with
  | nil => simp at h
  | cons c cs ih =>
    rw [List.all_cons, Bool.and_eq_false_iff] at h
    unfold alnumRunLength
    rcases h with h | h
    · refine ⟨c, cs, ?_, h⟩
      simp [h]
    · have hcs := ih h
      by_cases hc : isExtChar c
      · simpa [hc] using hcs
      · exact ⟨c, cs, by simp [hc], by simp [hc]⟩

theorem extGroupsAux_ne_dot {fuel : Nat} {c : Char} {t : List Char} (h : c ≠ '.') :
    extGroupsAux fuel (c :: t) = false := by
  cases fuel with
  | zero => rfl
  | succ n =>
    unfold extGroupsAux
    simp [h]

theorem extGroups_spec {rest : List Char} (hnd : '.' ∉ rest) :
    extGroups ('.' :: rest) = specValidExtShape ('.' :: rest) := by
  show extGroupsAux ('.' :: rest).length ('.' :: rest) = _
  rw [List.length_cons]
  unfold extGroupsAux
  rw [if_pos rfl]
  dsimp only
  cases hall : rest.all isExtChar with
  | false =>
    obtain ⟨c, t, hdrop, hc⟩ := alnumRun_not_all hall
    have hcd : c ≠ '.' := by
      intro hceq
      subst hceq
      have : '.' ∈ rest.drop (alnumRunLength rest) := by
        rw [hdrop]
        exact List.mem_cons_self _ _
      exact hnd (List.drop_subset _ _ this)
    rw [hdrop, extGroupsAux_ne_dot hcd]
    simp only [List.isEmpty_cons, Bool.false_or, ite_self]
    simp [specValidExtShape, hall]
  | true =>
    rw [alnumRun_all hall, List.drop_length]
    simp only [List.isEmpty_nil, Bool.true_or]
    unfold specValidExtShape
    by_cases h2 : 2 ≤ rest.length
    · by_cases h10 : rest.length ≤ 10
      · simp [h2, h10, hall]
      · simp [h2, h10]
    · simp [h2]

theorem regexNoDot {l : List Char} (h : '.' ∉ l) : regexHasExtMatch l = false := by
  induction l with
  | nil => rfl
  | cons c cs ih =>
    have hc : c ≠ '.' := by
      intro hceq
      exact h (hceq ▸ List.mem_cons_self _ _)
    have hcs : '.' ∉ cs := fun hm => h (List.mem_cons_of_mem c hm)
    unfold regexHasExtMatch
    rw [ih hcs, Bool.or_false]
    show extGroupsAux (c :: cs).length (c :: cs) = false
    rw [List.length_cons]
    exact extGroupsAux_ne_dot hc

theorem regexExtname {rest : List Char} (hnd : '.' ∉ rest) :
    regexHasExtMatch ('.' :: rest) = specValidExtShape ('.' :: rest) := by
  unfold regexHasExtMatch
  rw [regexNoDot hnd, Bool.or_false]
  exact extGroups_spec hnd

theorem jsEndsWith_iff {s t : List Char} : jsEndsWith s t = true ↔ t <:+ s := by
  unfold jsEndsWith
  rw [Bool.and_eq_true, decide_eq_true_eq, decide_eq_true_eq]
  constructor
  · rintro ⟨hl, hd⟩
    rw [List.suffix_iff_eq_drop]
    exact hd.symm
  · intro h
    exact ⟨h.length_le, (List.suffix_iff_eq_drop.1 h).symm⟩

theorem extname_cons_some {c : Char} {cs e : List Char} (hdd : c :: cs ≠ ['.', '.'])
    (h : extSuffix cs = some e) : extname (c :: cs) = e := by
  unfold extname
  rw [if_neg hdd]
  dsimp only
  rw [h]
  rfl

theorem extname_cons_none {c : Char} {cs : List Char} (hdd : c :: cs ≠ ['.', '.'])
    (h : extSuffix cs = none) : extname (c :: cs) = [] := by
  unfold extname
  rw [if_neg hdd]
  dsimp only
  rw [h]
  rfl

theorem extSuffix_cons_of_some {c : Char} {cs e : List Char} (h : extSuffix cs = some e) :
    extSuffix (c :: cs) = some e := by
  unfold extSuffix
  rw [h]

theorem getFileExtension_props {f : List Char} (h : getFileExtension f ≠ []) :
    getFileExtension f <:+ f ∧ (getFileExtension f).length < f.length := by
  unfold getFileExtension at *
  dsimp only at h ⊢
  cases hr : regexHasExtMatch (extname f) with
  | false =>
    simp [hr] at h
  | true =>
    rw [hr] at h
    rw [if_pos rfl] at h ⊢
    by_cases hdd : f = ['.', '.']
    · subst hdd
      simp [extname] at h
    · cases f with
      | nil => simp [extname] at h
      | cons c cs =>
        cases hcs : extSuffix cs with
        | none => rw [extname_cons_none hdd hcs] at h; exact absurd rfl h
        | some e =>
          rw [extname_cons_some hdd hcs] at h ⊢
          have hsfx : e <:+ cs := extSuffix_isSuffix hcs
          refine ⟨hsfx.trans (List.suffix_cons c cs), ?_⟩
          have := hsfx.length_le
          simp only [List.length_cons]
          omega

theorem stem_eq_specStem (f : List Char) :
    jsBasenameExt f (getFileExtension f) = specStem f (getFileExtension f) := by
  by_cases hE : getFileExtension f = []
  · rw [hE]
    unfold jsBasenameExt specStem
    rw [if_pos rfl, if_pos List.nil_suffix]
    simp [List.take_length]
  · obtain ⟨hsfx, hlen⟩ := getFileExtension_props hE
    have hne : f ≠ getFileExtension f := by
      intro heq
      rw [← heq] at hlen
      omega
    unfold jsBasenameExt specStem
    rw [if_neg hE, if_neg hne, if_pos (jsEndsWith_iff.2 hsfx), if_pos hsfx]

theorem generateFilename_of_le {stem hash suffix ext : List Char}
    (h : utf8ByteLength (stem ++ '-' :: (hash ++ suffix ++ ext)) ≤ MAX_FILENAME_BYTES) :
    generateFilename stem hash suffix ext = stem ++ '-' :: (hash ++ suffix ++ ext) := by
  unfold generateFilename
  rw [if_neg (by omega)]

/-- C1: the length-bound claim fails on the code.  With stem `"aa"` followed
by sixty U+1F334 (242 UTF-8 bytes), hash `"a1b2c3d4e5f6"`, suffix `"_o"` and
extension `".jpg"` (tail of 19 bytes, 261 bytes in total), `generateFilename`
removes six bytes from the encoded stem, stranding two bytes of a four-byte
character; the decoder replaces them with U+FFFD (three bytes), so the
returned filename is 256 bytes — one more than `MAX_FILENAME_BYTES`. -/
theorem generateFilename_exceeds_max :
    utf8ByteLength (generateFilename c1stem hash12 sfxO extJpg) = MAX_FILENAME_BYTES + 1 := by
  decide

/-- C2: the whole-character-truncation claim fails on the code.  With stem
`"a"` followed by sixty U+1F334, the truncation point falls three bytes into
a four-byte character, and the decoded truncated stem ends in the U+FFFD
replacement character — a character that does not occur in the original stem,
so the truncated stem is not a prefix of the original stem's characters
(here the total still lands on exactly `MAX_FILENAME_BYTES` bytes). -/
theorem generateFilename_mid_char_split :
    '�' ∈ generateFilename c2stem hash12 sfxO extJpg ∧
      '�' ∉ c2stem ∧
      utf8ByteLength (generateFilename c2stem hash12 sfxO extJpg) = MAX_FILENAME_BYTES := by
  decide

/-- C3: for every stem, hash, suffix and extension, the output of
`generateFilename` ends with `"-" + hash + suffix + ext` exactly as given —
only the stem part in front of that tail is ever altered, and it is left
unchanged whenever the whole name fits in `MAX_FILENAME_BYTES`. -/
theorem generateFilename_frame (stem hash suffix ext : List Char) :
    ∃ stem2 : List Char,
      generateFilename stem hash suffix ext = stem2 ++ '-' :: (hash ++ suffix ++ ext) ∧
      (utf8ByteLength (stem ++ '-' :: (hash ++ suffix ++ ext)) ≤ MAX_FILENAME_BYTES →
        stem2 = stem) := by
  unfold generateFilename
  dsimp only
  by_cases h : MAX_FILENAME_BYTES < utf8ByteLength (stem ++ '-' :: (hash ++ suffix ++ ext))
  · rw [if_pos h]
    exact ⟨_, rfl, fun hle => absurd h (by omega)⟩
  · rw [if_neg h]
    exact ⟨stem, rfl, fun _ => rfl⟩

/-- C3 witness: the frame property evaluated at the repository's own test
vector (`stem = "something"`, `hash = "a1b2c3d4e5f6"`, `suffix = "_o"`,
`ext = ".jpg"`). -/
theorem generateFilename_frame_witness :
    ∃ stem2 : List Char,
      generateFilename "something".data hash12 sfxO extJpg
          = stem2 ++ '-' :: (hash12 ++ sfxO ++ extJpg) ∧
      (utf8ByteLength ("something".data ++ '-' :: (hash12 ++ sfxO ++ extJpg)) ≤ MAX_FILENAME_BYTES →
        stem2 = "something".data) :=
  generateFilename_frame "something".data hash12 sfxO extJpg

/-- C4: sanitization is idempotent and its output contains only characters
of `[A-Za-z0-9_@.-]`. -/
theorem sanitizeBasename_idempotent_and_closed (s : List Char) :
    sanitizeBasename (sanitizeBasename s) = sanitizeBasename s ∧
      (sanitizeBasename s).all isSanitizedChar = true :=
  ⟨sanitizeBasename_fixed (sanitizeBasename_all_sanitized s), sanitizeBasename_all_sanitized s⟩

/-- C5 counterexample: the equal-character-count / one-dash-per-character
claim fails on the code.  The single character U+1F334 is two UTF-16 code
units; the sanitizer regex has no `u` flag, so each unit is replaced
separately and the output has two characters where the input had one. -/
theorem sanitizeBasename_astral_counterexample :
    sanitizeBasename ['🌴'] = ['-', '-'] ∧
      (sanitizeBasename ['🌴']).length ≠ (['🌴'] : List Char).length := by
  decide

/-- C5 amended: for every input — mixed scripts included — sanitization is
exactly the per-character substitution that keeps `[A-Za-z0-9_@.]` and
replaces every other character by one dash per UTF-16 code unit (a single
dash for a Basic-Multilingual-Plane character, two dashes for a character
above U+FFFF), and it therefore preserves the UTF-16 code-unit count rather
than the character count. -/
theorem sanitizeBasename_code_units (s : List Char) :
    sanitizeBasename s = specSanitize s ∧
      utf16Length (sanitizeBasename s) = utf16Length s := by
  refine ⟨?_, sanitizeBasename_utf16_length s⟩
  induction s with
  | nil => rfl
  | cons c cs ih =>
    unfold sanitizeBasename specSanitize specSanitizeChar
    by_cases h1 : 0x10000 ≤ c.toNat
    · have hnf : isFileNameChar c = false := by
        cases hf : isFileNameChar c
        · rfl
        · exact absurd (fileNameChar_bmp hf) (by omega)
      have hu : utf16Units c = 2 := by
        unfold utf16Units
        simp
        omega
      simp [h1, hnf, hu, ih, List.replicate]
    · by_cases h2 : isFileNameChar c
      · simp [h1, h2, ih]
      · have hu : utf16Units c = 1 := by
          unfold utf16Units
          simp
          omega
        simp [h1, h2, hu, ih, List.replicate]

/-- C6 counterexample: the claimed biconditional fails on the code.  For the
name `".zip"` the trailing dot-prefixed group is the whole name `".zip"`,
which is a dot followed by three alphanumerics, yet `getFileExtension`
returns the empty string (hidden-file convention of `path.extname`). -/
theorem getFileExtension_hidden_dot_counterexample :
    getFileExtension ".zip".data = [] ∧
      specTrailingDotGroup ".zip".data = ".zip".data ∧
      specValidExtShape ".zip".data = true := by
  decide

/-- C6 amended: `getFileExtension` returns the trailing dot-prefixed group
exactly when it is a dot followed by 2 to 10 alphanumeric characters AND the
group is shorter than the whole name (i.e. the dot is not the name's first
character); in every other case it returns the empty string. -/
theorem getFileExtension_characterization (f : List Char) :
    getFileExtension f =
      if specValidExtShape (specTrailingDotGroup f) &&
          decide ((specTrailingDotGroup f).length < f.length)
      then specTrailingDotGroup f else [] := by
  by_cases hdd : f = ['.', '.']
  · subst hdd
    decide
  · cases f with
    | nil => decide
    | cons c cs =>
      cases hcs : extSuffix cs with
      | none =>
        have hx : extname (c :: cs) = [] := extname_cons_none hdd hcs
        have hL : getFileExtension (c :: cs) = [] := by
          unfold getFileExtension
          dsimp only
          rw [hx]
          rfl
        have hT : extSuffix (c :: cs) = if c = '.' then some (c :: cs) else none := by
          unfold extSuffix
          rw [hcs]
        rw [hL]
        unfold specTrailingDotGroup
        rw [hT]
        by_cases hc : c = '.'
        · rw [if_pos hc]
          have hdec : decide ((Option.getD (some (c :: cs)) []).length < (c :: cs).length)
              = false := by
            simp
          rw [hdec, Bool.and_false]
          simp
        · rw [if_neg hc]
          simp [specValidExtShape]
      | some e =>
        obtain ⟨rest, hre, hnd⟩ := extSuffix_shape hcs
        have hx : extname (c :: cs) = e := extname_cons_some hdd hcs
        have hTg : specTrailingDotGroup (c :: cs) = e := by
          unfold specTrailingDotGroup
          rw [extSuffix_cons_of_some hcs]
          rfl
        have hlen : e.length < (c :: cs).length := by
          have := (extSuffix_isSuffix hcs).length_le
          simp only [List.length_cons]
          omega
        have hrx : regexHasExtMatch e = specValidExtShape e := by
          rw [hre]
          exact regexExtname hnd
        rw [hTg]
        unfold getFileExtension
        dsimp only
        rw [hx, hrx, decide_eq_true hlen, Bool.and_true]

/-- C7: with the resolved extension of the filename, `getSuffix` returns the
candidate suffix exactly when the stem — the filename with that extension
removed — ends with the candidate, and the empty string otherwise; a
mid-stem occurrence does not count, and the check is against the end of the
stem, not of the full filename. -/
theorem getSuffix_trailing_only (f sfx : List Char) :
    getSuffix f (getFileExtension f) sfx =
      if sfx <:+ specStem f (getFileExtension f) then sfx else [] := by
  unfold getSuffix
  dsimp only
  rw [stem_eq_specStem]
  by_cases h : sfx <:+ specStem f (getFileExtension f)
  · rw [if_pos (jsEndsWith_iff.2 h), if_pos h]
  · rw [if_neg (fun hc => h (jsEndsWith_iff.1 hc)), if_neg h]

/-- C8: the hex encoding of eight random bytes is a sixteen-character string
of lowercase hexadecimal digits. -/
theorem generateSecureHash_spec (randomBytes : List Nat) (h : randomBytes.length = 8) :
    (generateSecureHash randomBytes).length = 16 ∧
      (generateSecureHash randomBytes).all isLowerHexDigit = true := by
  unfold generateSecureHash
  rw [bytesToHex_length, h]
  exact ⟨rfl, bytesToHex_all_hex randomBytes⟩

/-- C8 witness: evaluated at one concrete draw of eight bytes. -/
theorem generateSecureHash_spec_witness :
    (generateSecureHash bytes0).length = 16 ∧
      (generateSecureHash bytes0).all isLowerHexDigit = true :=
  generateSecureHash_spec bytes0 (by decide)

/-- C9: with an existence check that reports `true` for every candidate
name, the legacy `generateUnique` retry loop never terminates: for every
bound `fuel` on the number of existence checks, the run exhausts the bound
without returning a path. -/
theorem generateUnique_no_bound (dir name ext : List Char) (i fuel : Nat) :
    generateUnique (fun _ => true) dir name ext i fuel = none := by
  induction fuel generalizing i with
  | zero => rfl
  | succ n ih =>
    unfold generateUnique
    simpa using ih (i + 1)

/-- C10: for the input name `"something.1"` (whose trailing dot-group `.1`
is not a valid extension) the hash-based path keeps the invalid group as
part of the stem: the resulting path is the target directory joined with the
whole sanitized name, a dash, and the sixteen-hex-character hash, with no
extension. -/
theorem getUniquePathname_invalid_ext (randomBytes : List Nat) (h : randomBytes.length = 8) :
    getUniquePathname randomBytes something1 ORIGINAL_SUFFIX targetDirStr
        = targetDirStr ++ '/' :: (something1 ++ '-' :: bytesToHex randomBytes) ∧
      (bytesToHex randomBytes).length = 16 ∧
      (bytesToHex randomBytes).all isLowerHexDigit = true := by
  refine ⟨?_, ?_, bytesToHex_all_hex randomBytes⟩
  · unfold getUniquePathname
    dsimp only
    have h1 : sanitizeBasename (jsBasename something1) = something1 := by decide
    rw [h1]
    have h2 : getFileExtension something1 = [] := by decide
    rw [h2]
    have h3 : getSuffix something1 [] ORIGINAL_SUFFIX = [] := by decide
    rw [h3]
    have h4 : jsBasenameExt something1 ([] ++ []) = something1 := by decide
    rw [h4]
    unfold generateUniqueFilename generateSecureHash
    have h5 : utf8ByteLength (something1 ++ '-' :: (bytesToHex randomBytes ++ [] ++ []))
        ≤ MAX_FILENAME_BYTES := by
      simp only [List.append_nil]
      rw [utf8ByteLength_append, utf8ByteLength_cons, bytesToHex_utf8, h]
      have h6 : utf8ByteLength something1 = 11 := by decide
      have h7 : utf8Len '-' = 1 := by decide
      rw [h6, h7]
      unfold MAX_FILENAME_BYTES
      omega
    rw [generateFilename_of_le h5]
    simp only [List.append_nil]
    rfl
  · rw [bytesToHex_length, h]

/-- C10 witness: evaluated at one concrete draw of eight bytes. -/
theorem getUniquePathname_invalid_ext_witness :
    getUniquePathname bytes0 something1 ORIGINAL_SUFFIX targetDirStr
        = targetDirStr ++ '/' :: (something1 ++ '-' :: bytesToHex bytes0) ∧
      (bytesToHex bytes0).length = 16 ∧
      (bytesToHex bytes0).all isLowerHexDigit = true :=
  getUniquePathname_invalid_ext bytes0 (by decide)
